import Mathlib

/-!
# BEL-PDF-Summarizer — verification of the chunking / map-reduce summarization core

A shallow embedding, over `List Char`, of the pure core of the repository:

* `pdf_processor.py` — the word/token estimation helpers (`count_words`,
  `estimate_tokens`, `estimate_words_from_tokens`);
* `summarizer.py` — `ReplicateSummarizerWorker`: chunk planning
  (`_create_intelligent_chunks`), the per-chunk map stage (`_process_chunk`),
  the reduce stage (`_synthesize_final_summary`) and the orchestration (`run`).

Python strings are embedded as `List Char`; the Replicate completion service
(`self.client.run`) is an explicit function parameter
`complete : LLMInput → Except (List Char) (List Char)`; Qt signal emissions
become an explicit event list (`progressEvents`) plus a terminal `Outcome`
(`finished` for the `finished` signal, `errored` for the `error` signal).

CPython float arithmetic in the source is embedded by the exact integer value
it computes: `int(w * 1.3) = 13 * w / 10`, `int(t / 1.3) = 10 * t / 13`,
`int(c * 0.5) = c / 2` and `int((i + 1) / n * 60) = 60 * (i + 1) / n` (with
`/` the floor division on `ℕ`); these identities hold for every argument of
realistic magnitude (checked exhaustively far beyond any reachable size).
-/

namespace BelPdf

/-! ## Python primitives on `List Char` -/

/-- Python `str` whitespace (`\s` of `str.split` / `str.strip` / `re`),
restricted to ASCII: space, tab, newline, carriage return, vertical tab,
form feed. -/
def pyIsSpace (c : Char) : Bool :=
  c = ' ' || c = '\t' || c = '\n' || c = '\r' || c = '\x0b' || c = '\x0c'

/-- Character-wise split of a list at every character satisfying `p`: the
pieces strictly between separator characters, in order (pieces may be empty,
as with Python `re.split` on a single-character pattern). -/
def splitP (p : Char → Bool) : List Char → List (List Char)
  | [] => [[]]
  | c :: cs =>
    if p c then [] :: splitP p cs
    else (c :: (splitP p cs).headI) :: (splitP p cs).tail

/-- Python `str.strip()`: drop whitespace from both ends. -/
def strip (l : List Char) : List Char :=
  ((l.dropWhile pyIsSpace).reverse.dropWhile pyIsSpace).reverse

/-! ## `pdf_processor.py` — token estimation helpers -/

/-- `count_words(text)`: `len(text.split())` — the number of maximal runs of
non-whitespace characters (Python `str.split()` with no argument drops the
empty pieces). -/
def count_words (text : List Char) : Nat :=
  ((splitP pyIsSpace text).filter (fun w => !w.isEmpty)).length

/-- `estimate_tokens(text)`: `int(word_count * 1.3)`.  CPython computes
`int(w * 1.3)` with binary doubles; for every representable word count this
equals `⌊13 * w / 10⌋`, which is the value embedded here. -/
def estimate_tokens (text : List Char) : Nat :=
  13 * count_words text / 10

/-- `estimate_words_from_tokens(tokens)`: `int(tokens / 1.3)`; CPython's
float expression equals `⌊10 * tokens / 13⌋` for every representable
non-negative token count. -/
def estimate_words_from_tokens (tokens : Nat) : Nat :=
  10 * tokens / 13

/-! ## `summarizer.py` — intelligent chunking

`_create_intelligent_chunks` first splits the text into semantic units
(paragraphs via `re.split(r'\n\s*\n', text)`, with a sentence-level fallback
via `re.split(r'[.!?]+', text)`), then greedily packs consecutive units into
chunks bounded by `max_chunk_tokens`. -/

/-- Index of the last `'\n'` in a list, if any. -/
def lastIdxNL : List Char → Option Nat
  | [] => none
  | c :: cs =>
    match lastIdxNL cs with
    | some m => some (m + 1)
    | none => if c = '\n' then some 0 else none

/-- If the Python regex `\n\s*\n` matches at the head of the list, the length
of the (greedy, leftmost) match: one `'\n'`, then the longest whitespace run
that still ends in a `'\n'`.  `none` when there is no match here. -/
def sepLen : List Char → Option Nat
  | [] => none
  | c :: cs =>
    if c = '\n' then
      match lastIdxNL (cs.takeWhile pyIsSpace) with
      | some m => some (m + 2)
      | none => none
    else none

/-- The scanning loop of `re.split(r'\n\s*\n', text)`, driven by a fuel
argument so that the recursion is structural (the fuel never runs out when it
starts at the list's length; see `reSplitBlankFuel_congr`): at each position
where the blank-line separator matches (greedily), close the current piece
and resume after the match. -/
def reSplitBlankFuel : Nat → List Char → List (List Char)
  | 0, l => [l]
  | fuel + 1, l =>
    match l with
    | [] => [[]]
    | c :: cs =>
      match sepLen (c :: cs) with
      | some n => [] :: reSplitBlankFuel fuel (cs.drop (n - 1))
      | none =>
        (c :: (reSplitBlankFuel fuel cs).headI) :: (reSplitBlankFuel fuel cs).tail

/-- `re.split(r'\n\s*\n', text)`. -/
def reSplitBlank (l : List Char) : List (List Char) :=
  reSplitBlankFuel l.length l

/-- The sentence-boundary characters of the fallback pattern `[.!?]+`. -/
def isSentencePunct (c : Char) : Bool :=
  c = '.' || c = '!' || c = '?'

/-- `[p.strip() for p in re.split(r'\n\s*\n', text) if p.strip()]`. -/
def paragraphsOf (text : List Char) : List (List Char) :=
  ((reSplitBlank text).map strip).filter (fun p => !p.isEmpty)

/-- `[s.strip() for s in re.split(r'[.!?]+', text) if s.strip()]`.  Splitting
on the runs `[.!?]+` and then discarding blank pieces coincides with the
character-wise split: merging adjacent separators only removes pieces that
are empty, and those are filtered out. -/
def sentencesOf (text : List Char) : List (List Char) :=
  ((splitP isSentencePunct text).map strip).filter (fun p => !p.isEmpty)

/-- The semantic units `_create_intelligent_chunks` packs: paragraphs, or the
sentence-level fallback when paragraph splitting yields at most two units and
the text is longer than 500 characters. -/
def unitsOf (text : List Char) : List (List Char) :=
  if (paragraphsOf text).length ≤ 2 ∧ 500 < text.length then sentencesOf text
  else paragraphsOf text

/-- `max_chunk_tokens = 8000`. -/
def max_chunk_tokens : Nat := 8000

/-- The chunk separator `'\n\n'` used by `'\n\n'.join(current_chunk)`. -/
def nn : List Char := ['\n', '\n']

/-- Python `sep.join(pieces)`. -/
def joinSep (sep : List Char) : List (List Char) → List Char
  | [] => []
  | [u] => u
  | u :: us => u ++ sep ++ joinSep sep us

/-- The greedy packing loop of `_create_intelligent_chunks`, kept at the
level of unit groups: `cur` and `curTokens` are the source's `current_chunk`
and `current_tokens`; a chunk is the group of units joined by `'\n\n'`
(see `packChunks` / `packChunks_eq_groups`). -/
def packGroups : List (List Char) → List (List Char) → Nat → List (List (List Char))
  | [], cur, _ => if cur = [] then [] else [cur]
  | p :: ps, cur, curTokens =>
    if max_chunk_tokens < curTokens + estimate_tokens p ∧ cur ≠ [] then
      cur :: packGroups ps [p] (estimate_tokens p)
    else
      packGroups ps (cur ++ [p]) (curTokens + estimate_tokens p)

/-- The packing loop exactly as the source writes it, producing the joined
chunk strings directly. -/
def packChunks : List (List Char) → List (List Char) → Nat → List (List Char)
  | [], cur, _ => if cur = [] then [] else [joinSep nn cur]
  | p :: ps, cur, curTokens =>
    if max_chunk_tokens < curTokens + estimate_tokens p ∧ cur ≠ [] then
      joinSep nn cur :: packChunks ps [p] (estimate_tokens p)
    else
      packChunks ps (cur ++ [p]) (curTokens + estimate_tokens p)

/-- `_create_intelligent_chunks(text)` (named without the leading underscore,
which Lean reserves): split into semantic units, then pack greedily starting
from an empty `current_chunk` with `current_tokens = 0`. -/
def create_intelligent_chunks (text : List Char) : List (List Char) :=
  packChunks (unitsOf text) [] 0

/-! ## `summarizer.py` — the map-reduce run

`run` configures level parameters, chunks the text, maps every chunk through
one completion call (`_process_chunk`), and reduces the collected chunk
summaries with one final completion call (`_synthesize_final_summary`).
The Replicate client is the function parameter `complete`; a raised exception
of `self.client.run` is an `Except.error` carrying `str(e)`. -/

/-- `summary_level`: `'low'`, `'medium'`, `'high'`. -/
inductive SummaryLevel where
  | low
  | medium
  | high
deriving DecidableEq

/-- `target_words` per level (low = comprehensive 5000, medium = balanced
2500, high = concise 800). -/
def levelTargetWords : SummaryLevel → Nat
  | .low => 5000
  | .medium => 2500
  | .high => 800

/-- `detail_level` per summary level. -/
def detailLevel : SummaryLevel → List Char
  | .low => "extremely comprehensive and detailed".toList
  | .medium => "balanced and substantial".toList
  | .high => "concise but complete".toList

/-- `prompt_instruction` per summary level. -/
def promptInstructionOf : SummaryLevel → List Char
  | .low => "Provide an extremely comprehensive, detailed, and thorough summary. Include all key arguments, evidence, examples, data points, and nuances. Maintain the depth and richness of the original content.".toList
  | .medium => "Provide a balanced, substantial summary that covers all main points, key arguments, and important details while maintaining readability and flow.".toList
  | .high => "Provide a concise summary focusing on the most critical points, main arguments, and key takeaways while ensuring completeness.".toList

/-- The input record of one `self.client.run(GPT_NANO_MODEL, input={...})`
call.  The float sampling parameters are exact decimal literals in the
source; they are embedded as integers scaled by 100 (`0.3 ↦ 30`, `0.9 ↦ 90`,
`0.95 ↦ 95`, `0.1 ↦ 10`, `0 ↦ 0`). -/
structure LLMInput where
  prompt : List Char
  system_prompt : List Char
  temperature100 : Nat
  top_p100 : Nat
  max_completion_tokens : Nat
  presence_penalty100 : Nat
  frequency_penalty100 : Nat
deriving DecidableEq

/-- The completion service: the joined output text on success, `str(e)` of
the raised exception on failure. -/
abbrev Completion := LLMInput → Except (List Char) (List Char)

/-- The map-stage system prompt of `_process_chunk` (an f-string over
`detail_level`; the embedded line breaks keep the source's indentation). -/
def mapSystemPrompt (detail_level : List Char) : List Char :=
  "You are an expert summarizer specializing in creating ".toList ++ detail_level ++
    " summaries. \n        Your task is to process this text segment while preserving all important information, \n        key arguments, supporting evidence, and relevant details. This is part of a multi-stage \n        summarization process, so thoroughness is crucial.".toList

/-- The map-stage user prompt of `_process_chunk`. -/
def mapPrompt (prompt_instruction chunk : List Char) : List Char :=
  prompt_instruction ++
    "\n        \n        Text to summarize:\n        ".toList ++ chunk ++
    "\n        \n        Create a detailed summary that preserves the essence and important details of this section:".toList

/-- The full `input` dictionary of the map-stage call on one chunk:
`max_completion_tokens = min(int(chunk_tokens * 0.5), 4000)`. -/
def chunkCallInput (detail_level prompt_instruction chunk : List Char) : LLMInput where
  prompt := mapPrompt prompt_instruction chunk
  system_prompt := mapSystemPrompt detail_level
  temperature100 := 30
  top_p100 := 90
  max_completion_tokens := min (estimate_tokens chunk / 2) 4000
  presence_penalty100 := 0
  frequency_penalty100 := 10

/-- `_process_chunk`: one completion call on the chunk; a failure is caught
and replaced by the inline marker `"Error processing chunk: " + str(e)`. -/
def process_chunk (complete : Completion) (detail_level prompt_instruction chunk : List Char) :
    List Char :=
  match complete (chunkCallInput detail_level prompt_instruction chunk) with
  | .ok out => out
  | .error e => "Error processing chunk: ".toList ++ e

/-- The section delimiter joining the intermediate summaries. -/
def sectionSep : List Char := "\n\n=== SECTION ===\n\n".toList

/-- The reduce-stage system prompt of `_synthesize_final_summary`. -/
def reduceSystemPrompt (detail_level : List Char) : List Char :=
  "You are a master synthesizer capable of creating ".toList ++ detail_level ++
    " summaries. \n        Your task is to integrate multiple detailed section summaries into one cohesive, \n        comprehensive final summary that flows naturally and maintains the depth of the original content.".toList

/-- The reduce-stage user prompt:  the numbered synthesis directives, the
target word count `{estimate_words_from_tokens(target_tokens)}` rendered in
decimal, and the combined section summaries. -/
def reducePrompt (prompt_instruction : List Char) (target_tokens : Nat)
    (combined_summaries : List Char) : List Char :=
  prompt_instruction ++
    "\n        \n        Below are detailed summaries of different sections of a document. Your task is to synthesize \n        these into a single, cohesive, and comprehensive summary that:\n        \n        1. Maintains all key information and arguments\n        2. Flows naturally as a unified document\n        3. Eliminates redundancy while preserving important details\n        4. Achieves approximately ".toList ++
    (Nat.repr (estimate_words_from_tokens target_tokens)).toList ++
    " words\n        \n        Section Summaries:\n        ".toList ++ combined_summaries ++
    "\n        \n        Create a comprehensive final summary:".toList

/-- The full `input` dictionary of the single reduce-stage call:
`max_completion_tokens = min(target_tokens, 16000)`. -/
def synthCallInput (detail_level prompt_instruction : List Char) (target_tokens : Nat)
    (chunk_summaries : List (List Char)) : LLMInput where
  prompt := reducePrompt prompt_instruction target_tokens (joinSep sectionSep chunk_summaries)
  system_prompt := reduceSystemPrompt detail_level
  temperature100 := 40
  top_p100 := 95
  max_completion_tokens := min target_tokens 16000
  presence_penalty100 := 0
  frequency_penalty100 := 10

/-- `_synthesize_final_summary`: one completion call on the combined chunk
summaries; a failure is caught and the marker
`"Error in final synthesis: " + str(e)` is returned as the summary text. -/
def synthesize_final_summary (complete : Completion) (chunk_summaries : List (List Char))
    (target_tokens : Nat) (detail_level prompt_instruction : List Char) : List Char :=
  match complete (synthCallInput detail_level prompt_instruction target_tokens chunk_summaries) with
  | .ok out => out
  | .error e => "Error in final synthesis: ".toList ++ e

/-- The worker's terminal signal: `finished(final_summary)` or
`error(message)`. -/
inductive Outcome where
  | finished : List Char → Outcome
  | errored : List Char → Outcome
deriving DecidableEq

/-- One run's observable behaviour: the `progress` values emitted in order,
and the terminal signal. -/
structure RunResult where
  progressEvents : List Nat
  outcome : Outcome
deriving DecidableEq

/-- The placeholder the `run` guard tests the credential against
(`"YOUR_HARDCODED_REPLICATE_API_TOKEN_HERE"`). -/
def guardPlaceholder : List Char :=
  "YOUR_HARDCODED_REPLICATE_API_TOKEN_HERE".toList

/-- The fallback `config.py` assigns to `REPLICATE_API_TOKEN` when the
environment variable is unset
(`"PLEASE_SET_YOUR_REPLICATE_API_TOKEN_ENVIRONMENT_VARIABLE"`). -/
def configDefaultToken : List Char :=
  "PLEASE_SET_YOUR_REPLICATE_API_TOKEN_ENVIRONMENT_VARIABLE".toList

/-- The message of the credential guard. -/
def tokenErrorMsg : List Char :=
  "Error: Replicate API Token is not correctly set.".toList

/-- The progress value emitted after completing the `(i + 1)`-th of `n`
chunks: `20 + int((i + 1) / n * 60)`, whose CPython float value equals
`20 + ⌊60 * (i + 1) / n⌋` for every realistic `i`, `n`. -/
def progressAt (n i : Nat) : Nat := 20 + 60 * (i + 1) / n

/-- The progress values a run that passes the credential guard emits, in
order: 10, 20 after chunking, one value per mapped chunk, then 80 and 100. -/
def successEvents (n : Nat) : List Nat :=
  [10, 20] ++ (List.range n).map (progressAt n) ++ [80, 100]

/-- `run()`: the orchestration of `ReplicateSummarizerWorker.run`.

* The guard `if not self.api_token or self.api_token == "YOUR_HARDCODED_…"`
  emits `error` and returns before any progress value.
* `target_tokens = int(target_words * 1.3)` is `13 * target_words / 10`.
* Progress: 10, then 20 after chunking, then
  `20 + int((i + 1) / len(chunks) * 60)` (embedded as
  `20 + 60 * (i + 1) / n`) after chunk `i`, then 80, then 100.
* Both helper calls catch their own exceptions, so the `try` of `run`
  never fails on the embedded operations and the run always reaches
  `finished` once the guard passes. -/
def run (complete : Completion) (text_to_summarize : List Char)
    (summary_level : SummaryLevel) (api_token : List Char) : RunResult :=
  if api_token = [] ∨ api_token = guardPlaceholder then
    { progressEvents := [], outcome := .errored tokenErrorMsg }
  else
    let target_words := levelTargetWords summary_level
    let detail_level := detailLevel summary_level
    let prompt_instruction := promptInstructionOf summary_level
    let target_tokens := 13 * target_words / 10
    let chunks := create_intelligent_chunks text_to_summarize
    let n := chunks.length
    let chunk_summaries := chunks.map (process_chunk complete detail_level prompt_instruction)
    let final_summary :=
      synthesize_final_summary complete chunk_summaries target_tokens detail_level
        prompt_instruction
    { progressEvents := successEvents n
      outcome := .finished final_summary }

/-! ## Spec-modelled counterparts and concrete scenario inputs -/

/-- Modelled from the spec: `estimateTokens(text) = round(wordCount(text) * 1.3)`
(§4.1); rounding to the nearest integer, as the spec's words say, in place of
the source's `int(...)` truncation. -/
def spec_estimateTokens (text : List Char) : ℤ :=
  round ((count_words text : ℚ) * (13 / 10))

/-- Modelled from the spec: `estimateWords(tokenCount) = round(tokenCount / 1.3)`
(§4.1). -/
def spec_estimateWords (tokens : Nat) : ℤ :=
  round ((tokens : ℚ) / (13 / 10))

/-- A completion service that always succeeds, answering `"S"`. -/
def okComplete : Completion := fun _ => .ok ("S".toList)

/-- A completion service whose single reduce-stage call fails (the reduce
call is the one issued with `temperature = 0.4`) while every map-stage call
succeeds. -/
def reduceFailComplete : Completion := fun inp =>
  if inp.temperature100 = 40 then .error ("synthesis transport failure".toList)
  else .ok ("S".toList)

/-- A completion service whose map-stage calls fail (the map calls are the
ones issued with `temperature = 0.3`) while the reduce-stage call succeeds. -/
def mapFailComplete : Completion := fun inp =>
  if inp.temperature100 = 30 then .error ("map transport failure".toList)
  else .ok ("S".toList)

/-- A three-paragraph demonstration document. -/
def demoText : List Char := "alpha\n\nbeta\n\ngamma".toList

/-- A well-formed (non-placeholder) credential. -/
def demoToken : List Char := "r8-demo-token".toList

/-- The text `"a a a … a"` with `n` single-letter words separated by single
spaces (`awords 0 = ""`). -/
def awords : Nat → List Char
  | 0 => []
  | 1 => ['a']
  | n + 2 => 'a' :: ' ' :: awords (n + 1)

/-- A document that is one giant paragraph (it contains no newline at all)
of 6160 one-letter words, a sentence boundary, and one more word: the
paragraph fallback condition fires and the sentence units are packed into
two chunks. -/
def cexOneParagraph : List Char := awords 6160 ++ ['.', ' ', 'b']

/-- A document of three blank-line-separated paragraphs, the last two being
6160-word giants: both giants become over-ceiling chunks. -/
def cexTwoGiants : List Char :=
  'b' :: '\n' :: '\n' :: (awords 6160 ++ ('\n' :: '\n' :: awords 6160))

/-! ## Theorems -/

theorem packChunks_eq_groups (us : List (List Char)) (cur : List (List Char)) (t : Nat) :
    packChunks us cur t = (packGroups us cur t).map (joinSep nn) := by
  induction us generalizing cur t with
  | nil =>
    simp only [packChunks, packGroups]
    split <;> simp
  | cons p ps ih =>
    simp only [packChunks, packGroups]
    split
    · simp [ih]
    · exact ih _ _

/-! ### Splitting lemmas -/

theorem splitP_ne_nil (p : Char → Bool) (l : List Char) : splitP p l ≠ [] := by
  cases l with
  | nil => simp [splitP]
  | cons c cs => simp only [splitP]; split <;> simp

/-- Splitting a list whose prefix contains no separator: the prefix lands at
the front of the first piece. -/
theorem splitP_append_clean (p : Char → Bool) (l₁ l₂ : List Char)
    (h : ∀ c ∈ l₁, p c = false) :
    splitP p (l₁ ++ l₂) = (l₁ ++ (splitP p l₂).headI) :: (splitP p l₂).tail := by
  induction l₁ with
  | nil =>
    rcases hS : splitP p l₂ with _ | ⟨s, ss⟩
    · exact absurd hS (splitP_ne_nil p l₂)
    · simp [hS]
  | cons c cs ih =>
    have hc : p c = false := h c (by simp)
    have hrest : ∀ x ∈ cs, p x = false := fun x hx => h x (by simp [hx])
    simp [splitP, hc, ih hrest]

/-- A separator-free list splits into itself alone. -/
theorem splitP_all_clean (p : Char → Bool) (l : List Char)
    (h : ∀ c ∈ l, p c = false) : splitP p l = [l] := by
  have h2 := splitP_append_clean p l [] h
  simpa [splitP] using h2

/-- Every character of every piece comes from the split list. -/
theorem mem_of_mem_splitP {p : Char → Bool} {l : List Char} :
    ∀ {piece : List Char}, piece ∈ splitP p l → ∀ c ∈ piece, c ∈ l := by
  induction l with
  | nil =>
    intro piece hp
    simp only [splitP, List.mem_singleton] at hp
    subst hp; simp
  | cons a l ih =>
    intro piece hp
    by_cases pa : p a
    · have hEqn : splitP p (a :: l) = [] :: splitP p l := by
        simp [splitP, pa]
      rw [hEqn] at hp
      rcases List.mem_cons.mp hp with rfl | hp
      · simp
      · exact fun c hc => List.mem_cons_of_mem a (ih hp c hc)
    · rcases hS : splitP p l with _ | ⟨s, ss⟩
      · exact absurd hS (splitP_ne_nil p l)
      · have hsmem : s ∈ splitP p l := by rw [hS]; exact List.mem_cons_self s ss
        have hssmem : ∀ q ∈ ss, q ∈ splitP p l := fun q hq => by
          rw [hS]; exact List.mem_cons_of_mem s hq
        have hEqn : splitP p (a :: l) = (a :: s) :: ss := by
          simp only [splitP, pa, if_false, hS]
          rfl
        rw [hEqn] at hp
        rcases List.mem_cons.mp hp with hEq | hp
        · intro c hc
          rw [hEq] at hc
          rcases List.mem_cons.mp hc with rfl | hc
          · exact List.mem_cons_self _ _
          · exact List.mem_cons_of_mem a (ih hsmem c hc)
        · exact fun c hc => List.mem_cons_of_mem a (ih (hssmem piece hp) c hc)

theorem reSplitBlankFuel_nil (f : Nat) : reSplitBlankFuel f [] = [[]] := by
  cases f <;> rfl

theorem reSplitBlankFuel_ne_nil (f : Nat) (m : List Char) : reSplitBlankFuel f m ≠ [] := by
  cases f with
  | zero => simp [reSplitBlankFuel]
  | succ f =>
    cases m with
    | nil => simp [reSplitBlankFuel]
    | cons c cs =>
      simp only [reSplitBlankFuel]
      rcases hS : sepLen (c :: cs) with _ | n <;> simp [hS]

/-- The fuel is irrelevant as soon as it covers the list's length: the loop
always terminates before running out. -/
theorem reSplitBlankFuel_congr :
    ∀ fuel (l : List Char) (fuel' : Nat), l.length ≤ fuel → l.length ≤ fuel' →
      reSplitBlankFuel fuel l = reSplitBlankFuel fuel' l := by
  intro fuel
  induction fuel with
  | zero =>
    intro l fuel' h1 _
    have hl : l = [] := List.length_eq_zero.mp (Nat.le_zero.mp h1)
    subst hl
    rw [reSplitBlankFuel_nil, reSplitBlankFuel_nil]
  | succ f ih =>
    intro l fuel' h1 h2
    cases l with
    | nil => rw [reSplitBlankFuel_nil, reSplitBlankFuel_nil]
    | cons c cs =>
      cases fuel' with
      | zero => simp at h2
      | succ g =>
        simp only [List.length_cons] at h1 h2
        rcases hS : sepLen (c :: cs) with _ | n
        · simp only [reSplitBlankFuel, hS]
          rw [ih cs g (by omega) (by omega)]
        · simp only [reSplitBlankFuel, hS]
          rw [ih (cs.drop (n - 1)) g (by simp only [List.length_drop]; omega)
            (by simp only [List.length_drop]; omega)]

theorem reSplitBlank_nil : reSplitBlank [] = [[]] := rfl

theorem reSplitBlank_cons_none {c : Char} {cs : List Char} (h : sepLen (c :: cs) = none) :
    reSplitBlank (c :: cs) = (c :: (reSplitBlank cs).headI) :: (reSplitBlank cs).tail := by
  unfold reSplitBlank
  simp only [List.length_cons, reSplitBlankFuel, h]

theorem reSplitBlank_cons_some {c : Char} {cs : List Char} {n : Nat}
    (h : sepLen (c :: cs) = some n) :
    reSplitBlank (c :: cs) = [] :: reSplitBlank (cs.drop (n - 1)) := by
  unfold reSplitBlank
  simp only [List.length_cons, reSplitBlankFuel, h]
  rw [reSplitBlankFuel_congr cs.length (cs.drop (n - 1)) (cs.drop (n - 1)).length
    (by simp only [List.length_drop]; omega) (le_refl _)]

theorem reSplitBlank_ne_nil (l : List Char) : reSplitBlank l ≠ [] :=
  reSplitBlankFuel_ne_nil l.length l

/-- `sepLen` never matches at a head that is not a newline. -/
theorem sepLen_cons_of_ne {c : Char} (cs : List Char) (h : c ≠ '\n') :
    sepLen (c :: cs) = none := by
  simp [sepLen, h]

/-- Blank-line splitting of a list whose prefix contains no newline: the
prefix lands at the front of the first piece. -/
theorem reSplitBlank_append_clean (l₁ l₂ : List Char) (h : ∀ c ∈ l₁, c ≠ '\n') :
    reSplitBlank (l₁ ++ l₂) = (l₁ ++ (reSplitBlank l₂).headI) :: (reSplitBlank l₂).tail := by
  induction l₁ with
  | nil =>
    rcases hS : reSplitBlank l₂ with _ | ⟨s, ss⟩
    · exact absurd hS (reSplitBlank_ne_nil l₂)
    · simp [hS]
  | cons c cs ih =>
    have hc : c ≠ '\n' := h c (by simp)
    have hrest : ∀ x ∈ cs, x ≠ '\n' := fun x hx => h x (by simp [hx])
    rw [List.cons_append, reSplitBlank_cons_none (sepLen_cons_of_ne _ hc), ih hrest]
    simp

/-- A newline-free list splits into itself alone. -/
theorem reSplitBlank_all_clean (l : List Char) (h : ∀ c ∈ l, c ≠ '\n') :
    reSplitBlank l = [l] := by
  have h2 := reSplitBlank_append_clean l [] h
  simpa [reSplitBlank_nil] using h2

/-- A blank-line separator `"\n\n"` followed by text that starts with a
non-whitespace character closes the current piece exactly at the two
newlines. -/
theorem reSplitBlank_sep (l : List Char) (h : l.takeWhile pyIsSpace = []) :
    reSplitBlank ('\n' :: '\n' :: l) = [] :: reSplitBlank l := by
  have hnl : pyIsSpace '\n' = true := rfl
  have hsep : sepLen ('\n' :: '\n' :: l) = some 2 := by
    simp [sepLen, List.takeWhile_cons, hnl, h, lastIdxNL]
  rw [reSplitBlank_cons_some hsep]
  simp

/-- Every character of every piece comes from the split list. -/
theorem mem_of_mem_reSplitBlank {l : List Char} :
    ∀ {piece : List Char}, piece ∈ reSplitBlank l → ∀ c ∈ piece, c ∈ l := by
  suffices h : ∀ fuel (m : List Char), m.length ≤ fuel →
      ∀ piece ∈ reSplitBlankFuel fuel m, ∀ c ∈ piece, c ∈ m by
    intro piece hp
    exact h l.length l (le_refl _) piece hp
  intro fuel
  induction fuel with
  | zero =>
    intro m hm piece hp
    have hmnil : m = [] := List.length_eq_zero.mp (Nat.le_zero.mp hm)
    subst hmnil
    simp only [reSplitBlankFuel, List.mem_singleton] at hp
    subst hp
    simp
  | succ f ih =>
    intro m hm piece hp
    cases m with
    | nil =>
      simp only [reSplitBlankFuel, List.mem_singleton] at hp
      subst hp
      simp
    | cons c cs =>
      simp only [List.length_cons] at hm
      rcases hS : sepLen (c :: cs) with _ | n
      · rcases hFS : reSplitBlankFuel f cs with _ | ⟨s, ss⟩
        · exact absurd hFS (reSplitBlankFuel_ne_nil f cs)
        · have hsmem : s ∈ reSplitBlankFuel f cs := by
            rw [hFS]; exact List.mem_cons_self _ _
          have hssmem : ∀ q ∈ ss, q ∈ reSplitBlankFuel f cs := fun q hq => by
            rw [hFS]; exact List.mem_cons_of_mem s hq
          have hEqn : reSplitBlankFuel (f + 1) (c :: cs) = (c :: s) :: ss := by
            simp only [reSplitBlankFuel, hS, hFS]
            rfl
          rw [hEqn] at hp
          rcases List.mem_cons.mp hp with hEq | hp
          · intro x hx
            rw [hEq] at hx
            rcases List.mem_cons.mp hx with rfl | hx
            · exact List.mem_cons_self _ _
            · exact List.mem_cons_of_mem c (ih cs (by omega) s hsmem x hx)
          · exact fun x hx =>
              List.mem_cons_of_mem c (ih cs (by omega) piece (hssmem piece hp) x hx)
      · have hEqn : reSplitBlankFuel (f + 1) (c :: cs)
            = [] :: reSplitBlankFuel f (cs.drop (n - 1)) := by
          simp only [reSplitBlankFuel, hS]
        rw [hEqn] at hp
        rcases List.mem_cons.mp hp with rfl | hp
        · simp
        · intro x hx
          have hdl : (cs.drop (n - 1)).length ≤ f := by
            simp only [List.length_drop]; omega
          exact List.mem_cons_of_mem c (List.mem_of_mem_drop (ih _ hdl piece hp x hx))

/-! ### Strip lemmas -/

theorem headI_mem {l : List Char} (h : l ≠ []) : l.headI ∈ l := by
  cases l with
  | nil => exact absurd rfl h
  | cons a t => simp

theorem headI_dropWhile_false (p : Char → Bool) :
    ∀ l : List Char, l.dropWhile p ≠ [] → p ((l.dropWhile p).headI) = false := by
  intro l
  induction l with
  | nil => intro h; simp at h
  | cons a l ih =>
    intro h
    by_cases pa : p a
    · simp only [List.dropWhile_cons, pa, if_true] at h ⊢
      exact ih h
    · simp only [List.dropWhile_cons, pa, if_false] at h ⊢
      simpa using pa

theorem strip_eq_nil_of_space (l : List Char) (h : ∀ c ∈ l, pyIsSpace c = true) :
    strip l = [] := by
  unfold strip
  have h1 : l.dropWhile pyIsSpace = [] := List.dropWhile_eq_nil_iff.mpr fun c hc => by
    simp [h c hc]
  rw [h1]
  simp

theorem mem_of_mem_strip {l : List Char} {c : Char} (h : c ∈ strip l) : c ∈ l := by
  unfold strip at h
  rw [List.mem_reverse] at h
  have h3 : c ∈ (l.dropWhile pyIsSpace).reverse := (List.dropWhile_sublist _).subset h
  rw [List.mem_reverse] at h3
  exact (List.dropWhile_sublist _).subset h3

theorem strip_has_nonspace {l : List Char} (h : strip l ≠ []) :
    ∃ c ∈ strip l, pyIsSpace c = false := by
  unfold strip at h ⊢
  have hd2 : (l.dropWhile pyIsSpace).reverse.dropWhile pyIsSpace ≠ [] := by
    intro hc
    rw [hc] at h
    simp at h
  refine ⟨((l.dropWhile pyIsSpace).reverse.dropWhile pyIsSpace).headI, ?_,
    headI_dropWhile_false _ _ hd2⟩
  rw [List.mem_reverse]
  exact headI_mem hd2

theorem strip_ne_nil_of_mem {l : List Char} {c : Char} (hc : c ∈ l)
    (hns : pyIsSpace c = false) : strip l ≠ [] := by
  have key : ∀ m : List Char, c ∈ m → c ∈ m.dropWhile pyIsSpace := by
    intro m hm
    have hsplit : c ∈ m.takeWhile pyIsSpace ++ m.dropWhile pyIsSpace := by
      rw [List.takeWhile_append_dropWhile]
      exact hm
    rcases List.mem_append.mp hsplit with h | h
    · exact absurd (List.mem_takeWhile_imp h) (by simp [hns])
    · exact h
  have h2 : c ∈ (l.dropWhile pyIsSpace).reverse.dropWhile pyIsSpace := by
    apply key
    rw [List.mem_reverse]
    exact key l hc
  intro hstrip
  unfold strip at hstrip
  rw [List.reverse_eq_nil_iff] at hstrip
  rw [hstrip] at h2
  simp at h2

theorem strip_eq_self (l : List Char) (h1 : l.dropWhile pyIsSpace = l)
    (h2 : l.reverse.dropWhile pyIsSpace = l.reverse) : strip l = l := by
  unfold strip
  rw [h1, h2, List.reverse_reverse]

theorem dropWhile_eq_self_of_head {c : Char} (t : List Char) (h : pyIsSpace c = false) :
    (c :: t).dropWhile pyIsSpace = c :: t := by
  simp [List.dropWhile_cons, h]

/-! ### Semantic-unit lemmas -/

/-- Every unit the planner packs is a stripped, filtered piece of the
text: it is non-empty, and all its characters come from the text. -/
theorem mem_units_cases {text u : List Char} (hu : u ∈ unitsOf text) :
    u ≠ [] ∧ ∃ piece, u = strip piece ∧ ∀ c ∈ piece, c ∈ text := by
  unfold unitsOf at hu
  split at hu
  · unfold sentencesOf at hu
    rcases List.mem_filter.mp hu with ⟨hmap, hne⟩
    rcases List.mem_map.mp hmap with ⟨piece, hpiece, rfl⟩
    refine ⟨by simpa using hne, piece, rfl, fun c hc => mem_of_mem_splitP hpiece c hc⟩
  · unfold paragraphsOf at hu
    rcases List.mem_filter.mp hu with ⟨hmap, hne⟩
    rcases List.mem_map.mp hmap with ⟨piece, hpiece, rfl⟩
    refine ⟨by simpa using hne, piece, rfl, fun c hc => mem_of_mem_reSplitBlank hpiece c hc⟩

theorem mem_units_ne_nil {text u : List Char} (hu : u ∈ unitsOf text) : u ≠ [] :=
  (mem_units_cases hu).1

theorem mem_units_nonspace {text u : List Char} (hu : u ∈ unitsOf text) :
    ∃ c ∈ u, pyIsSpace c = false := by
  rcases mem_units_cases hu with ⟨hne, piece, rfl, _⟩
  exact strip_has_nonspace hne

theorem mem_units_chars {text u : List Char} (hu : u ∈ unitsOf text) :
    ∀ c ∈ u, c ∈ text := by
  rcases mem_units_cases hu with ⟨_, piece, rfl, hsub⟩
  exact fun c hc => hsub c (mem_of_mem_strip hc)

/-- A text of nothing but whitespace has no semantic units at all. -/
theorem unitsOf_all_space {text : List Char} (h : ∀ c ∈ text, pyIsSpace c = true) :
    unitsOf text = [] := by
  rcases hU : unitsOf text with _ | ⟨u, us⟩
  · rfl
  · have hu : u ∈ unitsOf text := by rw [hU]; exact List.mem_cons_self _ _
    rcases mem_units_nonspace hu with ⟨c, hcu, hcns⟩
    have hct : c ∈ text := mem_units_chars hu c hcu
    rw [h c hct] at hcns
    cases hcns

/-! ### Packing lemmas -/

/-- Flattening the packed groups gives back exactly the pending units
prefixed by the running chunk: packing loses and reorders nothing. -/
theorem packGroups_flatten (us : List (List Char)) :
    ∀ cur t, (packGroups us cur t).flatten = cur ++ us := by
  induction us with
  | nil =>
    intro cur t
    simp only [packGroups]
    split
    · simp [*]
    · simp
  | cons p ps ih =>
    intro cur t
    simp only [packGroups]
    split
    · simp [ih]
    · rw [ih]
      simp

theorem packGroups_mem_ne_nil_aux (us : List (List Char)) :
    ∀ cur t g, cur ≠ [] → g ∈ packGroups us cur t → g ≠ [] := by
  induction us with
  | nil =>
    intro cur t g hc hg
    simp only [packGroups] at hg
    rw [if_neg hc, List.mem_singleton] at hg
    subst hg
    exact hc
  | cons p ps ih =>
    intro cur t g hc hg
    simp only [packGroups] at hg
    split at hg
    · rcases List.mem_cons.mp hg with rfl | hg
      · exact hc
      · exact ih _ _ g (by simp) hg
    · exact ih _ _ g (by simp) hg

/-- Every group the planner emits is non-empty. -/
theorem packGroups_mem_ne_nil {us : List (List Char)} {t : Nat} {g : List (List Char)}
    (hg : g ∈ packGroups us [] t) : g ≠ [] := by
  cases us with
  | nil => simp [packGroups] at hg
  | cons p ps =>
    simp only [packGroups] at hg
    rw [if_neg (by simp)] at hg
    exact packGroups_mem_ne_nil_aux ps _ _ g (by simp) hg

/-- The token invariant of the greedy loop: every emitted group either fits
the ceiling (counting the tracked sum of its units' estimates) or is one
single oversized unit kept whole. -/
theorem packGroups_tokens (us : List (List Char)) :
    ∀ cur t g, t = (cur.map estimate_tokens).sum →
      ((cur.map estimate_tokens).sum ≤ max_chunk_tokens ∨
        ∃ u, cur = [u] ∧ max_chunk_tokens < estimate_tokens u) →
      g ∈ packGroups us cur t →
      ((g.map estimate_tokens).sum ≤ max_chunk_tokens ∨
        ∃ u, g = [u] ∧ max_chunk_tokens < estimate_tokens u) := by
  induction us with
  | nil =>
    intro cur t g ht hinv hg
    simp only [packGroups] at hg
    split at hg
    · simp at hg
    · rw [List.mem_singleton] at hg
      subst hg
      exact hinv
  | cons p ps ih =>
    intro cur t g ht hinv hg
    simp only [packGroups] at hg
    split at hg
    case isTrue hcond =>
      rcases List.mem_cons.mp hg with rfl | hg
      · exact hinv
      · refine ih [p] (estimate_tokens p) g (by simp) ?_ hg
        by_cases hp : estimate_tokens p ≤ max_chunk_tokens
        · left; simpa using hp
        · right; exact ⟨p, rfl, by omega⟩
    case isFalse hcond =>
      refine ih (cur ++ [p]) (t + estimate_tokens p) g (by rw [ht]; simp) ?_ hg
      by_cases hcur : cur = []
      · subst hcur
        simp only [List.nil_append]
        by_cases hp : estimate_tokens p ≤ max_chunk_tokens
        · left; simpa using hp
        · right; exact ⟨p, rfl, by omega⟩
      · have hle : t + estimate_tokens p ≤ max_chunk_tokens := by
          by_contra hgt
          exact hcond ⟨by omega, hcur⟩
        left
        have hsum : ((cur ++ [p]).map estimate_tokens).sum
            = (cur.map estimate_tokens).sum + estimate_tokens p := by simp
        omega

/-- The units of every emitted group are units of the input list. -/
theorem packGroups_mem_units {us cur : List (List Char)} {t : Nat}
    {g : List (List Char)} (hg : g ∈ packGroups us cur t) :
    ∀ u ∈ g, u ∈ cur ∨ u ∈ us := by
  intro u hu
  have hjoin : u ∈ (packGroups us cur t).flatten := List.mem_flatten.mpr ⟨g, hg, hu⟩
  rw [packGroups_flatten] at hjoin
  exact List.mem_append.mp hjoin

/-! ### Join lemmas -/

theorem joinSep_ne_nil (sep : List Char) (g : List (List Char)) (hg : g ≠ [])
    (hu : ∀ u ∈ g, u ≠ []) : joinSep sep g ≠ [] := by
  cases g with
  | nil => exact absurd rfl hg
  | cons u us =>
    cases us with
    | nil => simpa [joinSep] using hu u (by simp)
    | cons v vs =>
      have h1 := hu u (by simp)
      simp [joinSep, h1]

/-- A joined group starts with its first unit. -/
theorem joinSep_head_append (sep u : List Char) (us : List (List Char)) :
    ∃ t, joinSep sep (u :: us) = u ++ t := by
  cases us with
  | nil => exact ⟨[], by simp [joinSep]⟩
  | cons v vs => exact ⟨sep ++ joinSep sep (v :: vs), by simp [joinSep]⟩

theorem packChunks_single (u : List Char) : packChunks [u] [] 0 = [joinSep nn [u]] := by
  simp [packChunks]

/-- C4 (amended): the planner's chunks are the `'\n\n'`-joins of the packed
unit groups; every chunk is non-empty; flattening the groups reproduces the
semantic units in original order; and every group either keeps its tracked
token sum within the 8000 ceiling or is a single oversized unit kept whole
(several such oversized chunks may occur in one run). -/
theorem chunk_planner_invariants (text : List Char) :
    (∀ chunk ∈ create_intelligent_chunks text, chunk ≠ []) ∧
      (packGroups (unitsOf text) [] 0).flatten = unitsOf text ∧
      create_intelligent_chunks text = (packGroups (unitsOf text) [] 0).map (joinSep nn) ∧
      (∀ g ∈ packGroups (unitsOf text) [] 0,
        (g.map estimate_tokens).sum ≤ max_chunk_tokens ∨
          ∃ u, g = [u] ∧ max_chunk_tokens < estimate_tokens u) := by
  refine ⟨?_, by simpa using packGroups_flatten (unitsOf text) [] 0,
    packChunks_eq_groups _ _ _, ?_⟩
  · intro chunk hchunk
    rw [create_intelligent_chunks, packChunks_eq_groups] at hchunk
    rcases List.mem_map.mp hchunk with ⟨g, hg, rfl⟩
    apply joinSep_ne_nil _ _ (packGroups_mem_ne_nil hg)
    intro u hu
    rcases packGroups_mem_units hg u hu with h | h
    · simp at h
    · exact mem_units_ne_nil h
  · intro g hg
    exact packGroups_tokens _ _ _ g (by simp) (by left; simp) hg

/-- Witness for C4 at the text `"a b"`: its one chunk is non-empty and its
one group fits the ceiling. -/
theorem chunk_planner_invariants_witness :
    (['a', ' ', 'b'] : List Char) ≠ [] ∧
      ((([['a', ' ', 'b']] : List (List Char)).map estimate_tokens).sum ≤ max_chunk_tokens ∨
        ∃ u, ([['a', ' ', 'b']] : List (List Char)) = [u] ∧
          max_chunk_tokens < estimate_tokens u) :=
  ⟨(chunk_planner_invariants ['a', ' ', 'b']).1 ['a', ' ', 'b'] (by decide),
    (chunk_planner_invariants ['a', ' ', 'b']).2.2.2 [['a', ' ', 'b']] (by decide)⟩

/-- C10: on whitespace-only input (the empty string included) the planner
returns no chunks at all, and in general every chunk it returns is non-empty
and contains at least one non-whitespace character. -/
theorem chunks_nonempty_nonspace (text : List Char) :
    ((∀ c ∈ text, pyIsSpace c = true) → create_intelligent_chunks text = []) ∧
      ∀ chunk ∈ create_intelligent_chunks text,
        chunk ≠ [] ∧ ∃ c ∈ chunk, pyIsSpace c = false := by
  constructor
  · intro h
    rw [create_intelligent_chunks, unitsOf_all_space h]
    rfl
  · intro chunk hchunk
    rw [create_intelligent_chunks, packChunks_eq_groups] at hchunk
    rcases List.mem_map.mp hchunk with ⟨g, hg, rfl⟩
    have hne : ∀ u ∈ g, u ∈ unitsOf text := by
      intro u hu
      rcases packGroups_mem_units hg u hu with h | h
      · simp at h
      · exact h
    refine ⟨joinSep_ne_nil _ _ (packGroups_mem_ne_nil hg)
      (fun u hu => mem_units_ne_nil (hne u hu)), ?_⟩
    obtain ⟨u0, us, rfl⟩ : ∃ u0 us, g = u0 :: us := by
      rcases g with _ | ⟨u0, us⟩
      · exact absurd rfl (packGroups_mem_ne_nil hg)
      · exact ⟨u0, us, rfl⟩
    rcases joinSep_head_append nn u0 us with ⟨t, hjoin⟩
    rw [hjoin]
    rcases mem_units_nonspace (hne u0 (List.mem_cons_self _ _)) with ⟨c, hcu, hcns⟩
    exact ⟨c, List.mem_append.mpr (Or.inl hcu), hcns⟩

/-- Witness for C10: the whitespace-only text `" \n\t"` yields no chunks, and
the one chunk of `"a b"` is non-empty with a non-space character. -/
theorem chunks_nonempty_nonspace_witness :
    create_intelligent_chunks [' ', '\n', '\t'] = [] ∧
      ((['a', ' ', 'b'] : List Char) ≠ [] ∧
        ∃ c ∈ (['a', ' ', 'b'] : List Char), pyIsSpace c = false) :=
  ⟨(chunks_nonempty_nonspace [' ', '\n', '\t']).1 (by decide),
    (chunks_nonempty_nonspace ['a', ' ', 'b']).2 ['a', ' ', 'b'] (by decide)⟩

/-- C3 (amended): a document whose paragraph split yields exactly one unit
produces exactly one chunk regardless of its size, *provided* the
sentence-level fallback cannot subdivide it: either the text is at most 500
characters (the fallback does not fire), or it contains no `.`, `!`, `?`
(the fallback yields the same single unit).  Without that proviso the
fallback can split a giant paragraph into several chunks
(see the counterexample). -/
theorem single_paragraph_single_chunk (text : List Char)
    (h1 : (paragraphsOf text).length = 1)
    (h2 : text.length ≤ 500 ∨ ∀ c ∈ text, isSentencePunct c = false) :
    (create_intelligent_chunks text).length = 1 := by
  have hunits : (unitsOf text).length = 1 := by
    rcases h2 with hlen | hpunct
    · rw [unitsOf, if_neg (fun hc => absurd hc.2 (by omega))]
      exact h1
    · have hstrip : strip text ≠ [] := by
        rcases List.length_eq_one.mp h1 with ⟨u, hu⟩
        have humem : u ∈ paragraphsOf text := by rw [hu]; exact List.mem_cons_self _ _
        unfold paragraphsOf at humem
        rcases List.mem_filter.mp humem with ⟨hmap, hne⟩
        rcases List.mem_map.mp hmap with ⟨piece, hpiece, rfl⟩
        have hne2 : strip piece ≠ [] := by simpa using hne
        rcases strip_has_nonspace hne2 with ⟨c, hcu, hcns⟩
        have hctext : c ∈ text :=
          mem_of_mem_reSplitBlank hpiece c (mem_of_mem_strip hcu)
        exact strip_ne_nil_of_mem hctext hcns
      have hsent : sentencesOf text = [strip text] := by
        unfold sentencesOf
        rw [splitP_all_clean _ _ hpunct]
        simp [hstrip]
      rw [unitsOf]
      split
      · rw [hsent]; rfl
      · exact h1
  rcases List.length_eq_one.mp hunits with ⟨u, hu⟩
  rw [create_intelligent_chunks, hu, packChunks_single]
  rfl

/-- Witness for C3 (amended) at the short one-paragraph text `"hello"`. -/
theorem single_paragraph_single_chunk_witness :
    (paragraphsOf ("hello".toList)).length = 1 ∧
      (create_intelligent_chunks ("hello".toList)).length = 1 :=
  ⟨by decide, single_paragraph_single_chunk _ (by decide) (Or.inl (by decide))⟩

/-- Nat-division form of the floor of `w * 1.3`. -/
theorem floor_mul_thirteen_tenths (w : ℕ) :
    (13 * w / 10 : ℕ) = ⌊(w : ℚ) * (13 / 10)⌋₊ := by
  rw [show (w : ℚ) * (13 / 10) = ((13 * w : ℕ) : ℚ) / ((10 : ℕ) : ℚ) by push_cast; ring,
    Nat.floor_div_nat, Nat.floor_natCast]

/-- Nat-division form of the floor of `t / 1.3`. -/
theorem floor_div_thirteen_tenths (t : ℕ) :
    (10 * t / 13 : ℕ) = ⌊(t : ℚ) / (13 / 10)⌋₊ := by
  rw [show (t : ℚ) / (13 / 10) = ((10 * t : ℕ) : ℚ) / ((13 : ℕ) : ℚ) by push_cast; ring,
    Nat.floor_div_nat, Nat.floor_natCast]

/-- C7: for every non-empty text, the round trip
`estimate_words_from_tokens (estimate_tokens text)` differs from
`count_words text` by at most 1. -/
theorem estimate_roundtrip_within_one (text : List Char) (_h : text ≠ []) :
    |(estimate_words_from_tokens (estimate_tokens text) : ℤ) - (count_words text : ℤ)| ≤ 1 := by
  rw [abs_le]
  unfold estimate_words_from_tokens estimate_tokens
  constructor <;> omega

/-- Witness for C7 at the one-character text `"a"`: one word, one estimated
token, zero words back. -/
theorem estimate_roundtrip_within_one_witness :
    |(estimate_words_from_tokens (estimate_tokens ['a']) : ℤ) - (count_words ['a'] : ℤ)| ≤ 1 :=
  estimate_roundtrip_within_one ['a'] (by decide)

/-- C8 counterexample: on the two-word text `"a b"` the source computes
`int(2 * 1.3) = 2`, while the spec's `round(wordCount * 1.3)` is `3`; likewise
`int(2 / 1.3) = 1` while `round(2 / 1.3) = 2`.  The source truncates; it does
not round. -/
theorem estimate_tokens_not_round_counterexample :
    (estimate_tokens ['a', ' ', 'b'] : ℤ) ≠ spec_estimateTokens ['a', ' ', 'b'] ∧
      (estimate_words_from_tokens 2 : ℤ) ≠ spec_estimateWords 2 := by
  have h1 : estimate_tokens ['a', ' ', 'b'] = 2 := by decide
  have h2 : count_words ['a', ' ', 'b'] = 2 := by decide
  have h3 : estimate_words_from_tokens 2 = 1 := by decide
  constructor
  · simp only [spec_estimateTokens, h1, h2, round_eq]
    norm_num
  · simp only [spec_estimateWords, h3, round_eq]
    norm_num

/-- C8 amended: the estimators are total, are the *floor* (not the nearest
integer) of `wordCount * 1.3` and of `tokenCount / 1.3`, and both yield 0 on
the empty string / zero tokens. -/
theorem estimate_floor_spec :
    (∀ text, estimate_tokens text = ⌊(count_words text : ℚ) * (13 / 10)⌋₊) ∧
      (∀ t : ℕ, estimate_words_from_tokens t = ⌊(t : ℚ) / (13 / 10)⌋₊) ∧
      estimate_tokens [] = 0 ∧ estimate_words_from_tokens 0 = 0 := by
  refine ⟨fun text => ?_, fun t => ?_, rfl, rfl⟩
  · exact floor_mul_thirteen_tenths (count_words text)
  · exact floor_div_thirteen_tenths t

/-! ### The giant-paragraph scenarios -/

theorem awords_two (n : Nat) : awords (n + 2) = 'a' :: ' ' :: awords (n + 1) := rfl

theorem awords_mem : ∀ n, ∀ c ∈ awords n, c = 'a' ∨ c = ' ' := by
  intro n
  induction n with
  | zero => intro c hc; simp [awords] at hc
  | succ m ih =>
    cases m with
    | zero =>
      intro c hc
      simp only [awords, List.mem_singleton] at hc
      exact Or.inl hc
    | succ k =>
      intro c hc
      rw [awords_two] at hc
      rcases List.mem_cons.mp hc with rfl | hc
      · exact Or.inl rfl
      · rcases List.mem_cons.mp hc with rfl | hc
        · exact Or.inr rfl
        · exact ih c hc

theorem awords_shape (n : Nat) : ∃ t, awords (n + 1) = 'a' :: t := by
  cases n with
  | zero => exact ⟨[], rfl⟩
  | succ k => exact ⟨' ' :: awords (k + 1), rfl⟩

theorem reverse_awords_shape : ∀ n, ∃ t, (awords (n + 1)).reverse = 'a' :: t := by
  intro n
  induction n with
  | zero => exact ⟨[], rfl⟩
  | succ k ih =>
    rcases ih with ⟨t, ht⟩
    refine ⟨t ++ [' ', 'a'], ?_⟩
    rw [awords_two]
    simp [ht]

theorem awords_length : ∀ n, (awords (n + 1)).length = 2 * n + 1 := by
  intro n
  induction n with
  | zero => rfl
  | succ k ih =>
    rw [awords_two]
    simp only [List.length_cons, ih]
    omega

theorem splitP_space_awords :
    ∀ n, splitP pyIsSpace (awords (n + 1)) = List.replicate (n + 1) ['a'] := by
  intro n
  induction n with
  | zero => rfl
  | succ k ih =>
    rw [awords_two]
    have ha : pyIsSpace 'a' = false := rfl
    have hsp : pyIsSpace ' ' = true := rfl
    simp only [splitP, ha, hsp, if_false, if_true, List.headI, List.tail_cons]
    rw [ih]
    rfl

theorem count_words_awords (n : Nat) : count_words (awords (n + 1)) = n + 1 := by
  rw [count_words, splitP_space_awords]
  have hf : (List.replicate (n + 1) (['a'] : List Char)).filter (fun w => !w.isEmpty)
      = List.replicate (n + 1) ['a'] := by
    apply List.filter_eq_self.mpr
    intro a ha
    rw [List.eq_of_mem_replicate ha]
    rfl
  rw [hf, List.length_replicate]

theorem estimate_tokens_awords6160 : estimate_tokens (awords 6160) = 8008 := by
  have h : count_words (awords 6160) = 6160 := count_words_awords 6159
  rw [estimate_tokens, h]

theorem strip_awords (n : Nat) : strip (awords (n + 1)) = awords (n + 1) := by
  rcases awords_shape n with ⟨t, ht⟩
  rcases reverse_awords_shape n with ⟨rt, hrt⟩
  apply strip_eq_self
  · rw [ht]
    exact dropWhile_eq_self_of_head _ rfl
  · rw [hrt]
    exact dropWhile_eq_self_of_head _ rfl

theorem awords6160_shape : ∃ t, awords 6160 = 'a' :: t := awords_shape 6159

theorem awords6160_nl_free : ∀ c ∈ awords 6160, c ≠ '\n' := by
  intro c hc
  rcases awords_mem 6160 c hc with rfl | rfl <;> decide

theorem strip_awords6160 : strip (awords 6160) = awords 6160 := strip_awords 6159

theorem cexOneParagraph_nl_free : ∀ c ∈ cexOneParagraph, c ≠ '\n' := by
  intro c hc
  rcases List.mem_append.mp hc with h | h
  · exact awords6160_nl_free c h
  · simp only [List.mem_cons, List.not_mem_nil, or_false] at h
    rcases h with rfl | rfl | rfl <;> decide

theorem strip_cexOneParagraph : strip cexOneParagraph = cexOneParagraph := by
  rcases awords6160_shape with ⟨t0, ht0⟩
  apply strip_eq_self
  · rw [show cexOneParagraph = 'a' :: (t0 ++ ['.', ' ', 'b']) from by
      rw [cexOneParagraph, ht0]; rfl]
    exact dropWhile_eq_self_of_head _ rfl
  · rw [show cexOneParagraph.reverse = 'b' :: (' ' :: '.' :: (awords 6160).reverse) from by
      rw [cexOneParagraph]; simp]
    exact dropWhile_eq_self_of_head _ rfl

theorem cexOneParagraph_paragraphs : paragraphsOf cexOneParagraph = [cexOneParagraph] := by
  rcases awords6160_shape with ⟨t0, ht0⟩
  rw [paragraphsOf, reSplitBlank_all_clean _ cexOneParagraph_nl_free]
  simp only [List.map_cons, List.map_nil, strip_cexOneParagraph]
  rw [show cexOneParagraph = 'a' :: (t0 ++ ['.', ' ', 'b']) from by
    rw [cexOneParagraph, ht0]; rfl]
  rfl

theorem cexOneParagraph_length : cexOneParagraph.length = 12322 := by
  rw [cexOneParagraph, List.length_append,
    show awords 6160 = awords (6159 + 1) from rfl, awords_length]
  rfl

theorem cexOneParagraph_units : unitsOf cexOneParagraph = [awords 6160, ['b']] := by
  rw [unitsOf, if_pos ⟨by rw [cexOneParagraph_paragraphs]; norm_num,
    by rw [cexOneParagraph_length]; norm_num⟩]
  have hclean : ∀ c ∈ awords 6160, isSentencePunct c = false := by
    intro c hc
    rcases awords_mem 6160 c hc with rfl | rfl <;> rfl
  rw [sentencesOf, cexOneParagraph, splitP_append_clean _ _ _ hclean,
    show splitP isSentencePunct ['.', ' ', 'b'] = [[], [' ', 'b']] from rfl]
  simp only [List.headI, List.tail_cons, List.append_nil, List.map_cons, List.map_nil,
    strip_awords6160, show strip [' ', 'b'] = ['b'] from rfl]
  rcases awords6160_shape with ⟨t0, ht0⟩
  rw [ht0]
  rfl

theorem cexOneParagraph_chunks :
    create_intelligent_chunks cexOneParagraph = [awords 6160, ['b']] := by
  rw [create_intelligent_chunks, cexOneParagraph_units]
  norm_num [packChunks, estimate_tokens_awords6160, max_chunk_tokens, joinSep,
    show estimate_tokens ['b'] = 1 from rfl]

/-- C3 counterexample: `cexOneParagraph` is one giant paragraph (the
blank-line split yields exactly one unit — indeed it contains no newline at
all), yet the planner emits two chunks: the sentence-level fallback fires
(one paragraph, more than 500 characters) and its units overflow the token
ceiling. -/
theorem one_giant_paragraph_two_chunks :
    (paragraphsOf cexOneParagraph).length = 1 ∧
      (create_intelligent_chunks cexOneParagraph).length = 2 := by
  constructor
  · rw [cexOneParagraph_paragraphs]
    rfl
  · rw [cexOneParagraph_chunks]
    rfl

theorem cexTwoGiants_paragraphs :
    paragraphsOf cexTwoGiants = [['b'], awords 6160, awords 6160] := by
  rcases awords6160_shape with ⟨t0, ht0⟩
  have htw : ∀ l₂ : List Char, (awords 6160 ++ l₂).takeWhile pyIsSpace = [] := by
    intro l₂
    rw [ht0, List.cons_append, List.takeWhile_cons]
    rfl
  have htwA : (awords 6160).takeWhile pyIsSpace = [] := by
    have h := htw []
    rwa [List.append_nil] at h
  have h1 : reSplitBlank (awords 6160) = [awords 6160] :=
    reSplitBlank_all_clean _ awords6160_nl_free
  have hC : reSplitBlank ('\n' :: '\n' :: awords 6160) = [[], awords 6160] := by
    rw [reSplitBlank_sep _ htwA, h1]
  have hB : reSplitBlank (awords 6160 ++ ('\n' :: '\n' :: awords 6160))
      = [awords 6160, awords 6160] := by
    rw [reSplitBlank_append_clean _ _ awords6160_nl_free, hC]
    simp
  have hA : reSplitBlank ('\n' :: '\n' :: (awords 6160 ++ ('\n' :: '\n' :: awords 6160)))
      = [[], awords 6160, awords 6160] := by
    rw [reSplitBlank_sep _ (htw _), hB]
  have hD : reSplitBlank cexTwoGiants = [['b'], awords 6160, awords 6160] := by
    rw [show cexTwoGiants
        = ['b'] ++ ('\n' :: '\n' :: (awords 6160 ++ ('\n' :: '\n' :: awords 6160)))
      from rfl]
    rw [reSplitBlank_append_clean _ _ (by intro c hc; simp at hc; subst hc; decide), hA]
    rfl
  rw [paragraphsOf, hD]
  simp only [List.map_cons, List.map_nil, strip_awords6160,
    show strip ['b'] = ['b'] from rfl]
  rw [ht0]
  rfl

theorem cexTwoGiants_units : unitsOf cexTwoGiants = [['b'], awords 6160, awords 6160] := by
  rw [unitsOf, if_neg fun hc => by rw [cexTwoGiants_paragraphs] at hc; exact absurd hc.1 (by norm_num),
    cexTwoGiants_paragraphs]

theorem cexTwoGiants_chunks :
    create_intelligent_chunks cexTwoGiants = [['b'], awords 6160, awords 6160] := by
  rw [create_intelligent_chunks, cexTwoGiants_units]
  norm_num [packChunks, estimate_tokens_awords6160, max_chunk_tokens, joinSep,
    show estimate_tokens ['b'] = 1 from rfl]

/-- C4 counterexample: a document of three paragraphs in which two paragraphs
are oversized giants produces a run with *two* chunks over the 8000-token
ceiling, refuting "at most one chunk per run exceeds the ceiling". -/
theorem two_chunks_exceed_ceiling :
    create_intelligent_chunks cexTwoGiants = [['b'], awords 6160, awords 6160] ∧
      max_chunk_tokens < estimate_tokens (awords 6160) ∧
      1 < ((create_intelligent_chunks cexTwoGiants).filter
          (fun c => decide (max_chunk_tokens < estimate_tokens c))).length := by
  refine ⟨cexTwoGiants_chunks, ?_, ?_⟩
  · rw [estimate_tokens_awords6160]
    norm_num [max_chunk_tokens]
  · rw [cexTwoGiants_chunks]
    have hb : decide (max_chunk_tokens < estimate_tokens ['b']) = false := rfl
    have ha : decide (max_chunk_tokens < estimate_tokens (awords 6160)) = true := by
      simp only [estimate_tokens_awords6160]
      rfl
    simp [List.filter_cons, hb, ha]

/-! ### Run-level lemmas -/

/-- A run whose credential passes the guard performs the whole pipeline:
its progress trace is `successEvents` and it finishes with the synthesized
summary of the per-chunk summaries. -/
theorem run_token_ok (complete : Completion) (text : List Char) (level : SummaryLevel)
    (token : List Char) (htok : ¬(token = [] ∨ token = guardPlaceholder)) :
    run complete text level token =
      { progressEvents := successEvents (create_intelligent_chunks text).length
        outcome := .finished (synthesize_final_summary complete
          ((create_intelligent_chunks text).map
            (process_chunk complete (detailLevel level) (promptInstructionOf level)))
          (13 * levelTargetWords level / 10) (detailLevel level)
          (promptInstructionOf level)) } := by
  rw [run, if_neg htok]

theorem run_token_bad (complete : Completion) (text : List Char) (level : SummaryLevel)
    (token : List Char) (htok : token = [] ∨ token = guardPlaceholder) :
    run complete text level token = { progressEvents := [], outcome := .errored tokenErrorMsg } := by
  rw [run, if_pos htok]

theorem progressAt_bounds {n : Nat} (i : Nat) (hn : 0 < n) (hi : i < n) :
    20 ≤ progressAt n i ∧ progressAt n i ≤ 80 := by
  constructor
  · exact Nat.le_add_right _ _
  · have h1 : 60 * (i + 1) ≤ 60 * n := by omega
    have h2 : 60 * (i + 1) / n ≤ 60 * n / n := Nat.div_le_div_right h1
    have h3 : 60 * n / n = 60 := by
      rw [Nat.mul_div_assoc 60 (dvd_refl n), Nat.div_self hn]
    simp only [progressAt]
    omega

/-- The emitted progress trace of a guard-passing run is non-decreasing. -/
theorem chain_le_successEvents (n : Nat) : List.Chain' (· ≤ ·) (successEvents n) := by
  rcases n with _ | m
  · rw [show successEvents 0 = [10, 20, 80, 100] from rfl]
    norm_num [List.chain'_cons]
  · have hmono : ∀ k < m, progressAt (m + 1) k ≤ progressAt (m + 1) (k + 1) := by
      intro k hk
      have hdd : 60 * (k + 1) / (m + 1) ≤ 60 * (k + 1 + 1) / (m + 1) :=
        Nat.div_le_div_right (by omega)
      simp only [progressAt]
      omega
    have hchainmap : List.Chain' (· ≤ ·) ((List.range (m + 1)).map (progressAt (m + 1))) := by
      rw [List.chain'_map]
      exact (List.chain'_range_succ _ _).mpr hmono
    have hlastmap : ((List.range (m + 1)).map (progressAt (m + 1))).getLast?
        = some (progressAt (m + 1) m) := by
      rw [List.range_succ, List.map_append, List.map_singleton, List.getLast?_concat]
    have hheadmap : ((List.range (m + 1)).map (progressAt (m + 1))).head?
        = some (progressAt (m + 1) 0) := by
      rw [List.range_succ_eq_map]
      rfl
    rw [successEvents, List.chain'_append]
    refine ⟨?_, by norm_num [List.chain'_cons], ?_⟩
    · rw [List.chain'_append]
      refine ⟨by norm_num [List.chain'_cons], hchainmap, ?_⟩
      intro x hx y hy
      rw [show (([10, 20] : List Nat)).getLast? = some 20 from rfl] at hx
      rw [hheadmap] at hy
      simp only [Option.mem_def, Option.some_inj] at hx hy
      subst hx
      subst hy
      exact (progressAt_bounds 0 (by omega) (by omega)).1
    · intro x hx y hy
      rw [List.getLast?_append, hlastmap] at hx
      rw [show (([80, 100] : List Nat)).head? = some 80 from rfl] at hy
      rw [show (some (progressAt (m + 1) m)).or (([10, 20] : List Nat)).getLast?
          = some (progressAt (m + 1) m) from rfl] at hx
      simp only [Option.mem_def, Option.some_inj] at hx hy
      subst hx
      subst hy
      exact (progressAt_bounds m (by omega) (by omega)).2

theorem successEvents_getLast (n : Nat) : (successEvents n).getLast? = some 100 := by
  rw [successEvents, List.getLast?_append]
  rfl

/-- C5: within one run the emitted progress sequence is non-decreasing; a
successful run emits exactly `successEvents N` — 10, then 20, then
`20 + ⌊60 * i / N⌋` after map-stage chunk `i` of `N` (all within `[20, 80]`)
then 80 and 100, ending at 100; a failed run never emits 100. -/
theorem progress_events_spec (complete : Completion) (text : List Char)
    (level : SummaryLevel) (token : List Char) :
    List.Chain' (· ≤ ·) (run complete text level token).progressEvents ∧
      ((∃ s, (run complete text level token).outcome = .finished s) →
        (run complete text level token).progressEvents
            = successEvents (create_intelligent_chunks text).length ∧
          (run complete text level token).progressEvents.getLast? = some 100 ∧
          ∀ i < (create_intelligent_chunks text).length,
            progressAt (create_intelligent_chunks text).length i
                = 20 + 60 * (i + 1) / (create_intelligent_chunks text).length ∧
              20 ≤ progressAt (create_intelligent_chunks text).length i ∧
              progressAt (create_intelligent_chunks text).length i ≤ 80) ∧
      ((∃ m, (run complete text level token).outcome = .errored m) →
        100 ∉ (run complete text level token).progressEvents) := by
  by_cases htok : token = [] ∨ token = guardPlaceholder
  · rw [run_token_bad _ _ _ _ htok]
    refine ⟨by simp, ?_, ?_⟩
    · rintro ⟨s, hs⟩
      simp at hs
    · intro _
      simp
  · rw [run_token_ok _ _ _ _ htok]
    refine ⟨chain_le_successEvents _, ?_, ?_⟩
    · intro _
      refine ⟨rfl, successEvents_getLast _, ?_⟩
      intro i hi
      exact ⟨rfl, progressAt_bounds i (by omega) hi⟩
    · rintro ⟨m, hm⟩
      simp at hm

/-- Witness for C5: the three-paragraph demo run finishes with a
non-decreasing trace equal to `successEvents`, and a run rejected by the
credential guard (empty token) never emits 100. -/
theorem progress_events_spec_witness :
    List.Chain' (· ≤ ·) (run okComplete demoText .medium demoToken).progressEvents ∧
      (run okComplete demoText .medium demoToken).progressEvents
        = successEvents (create_intelligent_chunks demoText).length ∧
      100 ∉ (run okComplete demoText .medium []).progressEvents :=
  ⟨(progress_events_spec okComplete demoText .medium demoToken).1,
    ((progress_events_spec okComplete demoText .medium demoToken).2.1
      ⟨"S".toList, by decide⟩).1,
    (progress_events_spec okComplete demoText .medium []).2.2
      ⟨tokenErrorMsg, by decide⟩⟩

/-- C2: when one or more map-stage calls fail, each failing call is replaced
by the inline `"Error processing chunk: …"` marker, the run keeps one summary
per chunk in order, still reaches `finished` with a synthesis of all the
chunk summaries, and never ends in the `error` signal. -/
theorem map_failure_resilience (complete : Completion) (text : List Char)
    (level : SummaryLevel) (token : List Char)
    (htok : ¬(token = [] ∨ token = guardPlaceholder))
    (_hfail : ∃ chunk ∈ create_intelligent_chunks text, ∃ e,
      complete (chunkCallInput (detailLevel level) (promptInstructionOf level) chunk)
        = .error e) :
    ((create_intelligent_chunks text).map
        (process_chunk complete (detailLevel level) (promptInstructionOf level))).length
      = (create_intelligent_chunks text).length ∧
    (∀ chunk ∈ create_intelligent_chunks text, ∀ e,
      complete (chunkCallInput (detailLevel level) (promptInstructionOf level) chunk)
          = .error e →
        process_chunk complete (detailLevel level) (promptInstructionOf level) chunk
          = "Error processing chunk: ".toList ++ e) ∧
    (run complete text level token).outcome
      = .finished (synthesize_final_summary complete
          ((create_intelligent_chunks text).map
            (process_chunk complete (detailLevel level) (promptInstructionOf level)))
          (13 * levelTargetWords level / 10) (detailLevel level)
          (promptInstructionOf level)) ∧
    ∀ m, (run complete text level token).outcome ≠ .errored m := by
  refine ⟨by simp, ?_, ?_, ?_⟩
  · intro chunk _ e he
    rw [process_chunk, he]
  · rw [run_token_ok _ _ _ _ htok]
  · intro m
    rw [run_token_ok _ _ _ _ htok]
    simp

/-- Witness for C2: with a service failing every map call, the demo run
still never ends in the `error` signal. -/
theorem map_failure_resilience_witness :
    (run mapFailComplete demoText .medium demoToken).outcome ≠ .errored tokenErrorMsg :=
  (map_failure_resilience mapFailComplete demoText .medium demoToken (by decide)
    ⟨demoText, by decide, "map transport failure".toList, rfl⟩).2.2.2 tokenErrorMsg

/-- C1 counterexample: in a run whose single reduce-stage call fails, the
worker does NOT fail — `_synthesize_final_summary` catches the exception and
returns `"Error in final synthesis: …"`, which `run` then delivers through
the `finished` signal after emitting progress 100.  A FinalSummary (the
marker text) is delivered. -/
theorem reduce_failure_finishes :
    reduceFailComplete (synthCallInput (detailLevel .medium) (promptInstructionOf .medium)
        (13 * levelTargetWords .medium / 10)
        ((create_intelligent_chunks demoText).map
          (process_chunk reduceFailComplete (detailLevel .medium)
            (promptInstructionOf .medium))))
        = .error ("synthesis transport failure".toList) ∧
      (run reduceFailComplete demoText .medium demoToken).outcome
        = .finished ("Error in final synthesis: synthesis transport failure".toList) ∧
      (run reduceFailComplete demoText .medium demoToken).progressEvents.getLast?
        = some 100 := by
  refine ⟨rfl, rfl, rfl⟩

/-- C1 (amended): if the single reduce-stage completion call fails, the run
still reaches `finished`: the exception is converted to the inline marker
`"Error in final synthesis: " + cause` which is delivered as the
FinalSummary, progress ends at 100, and the `error` signal is never
emitted. -/
theorem reduce_failure_amended (complete : Completion) (text : List Char)
    (level : SummaryLevel) (token : List Char)
    (htok : ¬(token = [] ∨ token = guardPlaceholder)) (e : List Char)
    (hfail : complete (synthCallInput (detailLevel level) (promptInstructionOf level)
        (13 * levelTargetWords level / 10)
        ((create_intelligent_chunks text).map
          (process_chunk complete (detailLevel level) (promptInstructionOf level))))
      = .error e) :
    (run complete text level token).outcome
        = .finished ("Error in final synthesis: ".toList ++ e) ∧
      (run complete text level token).progressEvents.getLast? = some 100 ∧
      ∀ m, (run complete text level token).outcome ≠ .errored m := by
  rw [run_token_ok _ _ _ _ htok]
  refine ⟨?_, successEvents_getLast _, ?_⟩
  · simp only [synthesize_final_summary, hfail]
  · intro m
    simp

/-- Witness for the amended C1 at the demo run with a failing reduce call. -/
theorem reduce_failure_amended_witness :
    (run reduceFailComplete demoText .medium demoToken).outcome
        ≠ .errored tokenErrorMsg :=
  (reduce_failure_amended reduceFailComplete demoText .medium demoToken (by decide)
    ("synthesis transport failure".toList) rfl).2.2 tokenErrorMsg

/-- C6 failing input, evaluated: the fallback credential `config.py` supplies
when the environment variable is unset is neither empty nor the placeholder
string the guard checks, so the run sails past the guard, emits progress
(starting at 10, before any validation could stop it) and completes —
instead of failing with a configuration error. -/
theorem config_placeholder_not_rejected :
    configDefaultToken ≠ [] ∧ configDefaultToken ≠ guardPlaceholder ∧
      (run okComplete demoText .medium configDefaultToken).progressEvents.head?
        = some 10 ∧
      (run okComplete demoText .medium configDefaultToken).outcome
        = .finished ("S".toList) := by
  refine ⟨by decide, by decide, rfl, rfl⟩

/-- C9 counterexample: empty source text is not rejected — the run proceeds
with zero chunks, emits 10, 20, 80, 100, issues the reduce call on an empty
section list and delivers its output as a FinalSummary. -/
theorem empty_text_still_finishes :
    create_intelligent_chunks [] = [] ∧
      (run okComplete [] .medium demoToken).outcome = .finished ("S".toList) ∧
      (run okComplete [] .medium demoToken).progressEvents = [10, 20, 80, 100] := by
  refine ⟨rfl, rfl, rfl⟩

/-- C9 (amended): empty or whitespace-only text reaching the pipeline is not
detected: the planner yields zero chunks, the map stage is skipped, the
single reduce-stage call is still issued (on an empty summary list) and its
result is delivered as the FinalSummary with the full progress trace — the
run never fails because of the input. -/
theorem whitespace_input_no_failure (complete : Completion) (level : SummaryLevel)
    (token text : List Char) (htok : ¬(token = [] ∨ token = guardPlaceholder))
    (hws : ∀ c ∈ text, pyIsSpace c = true) :
    create_intelligent_chunks text = [] ∧
      (run complete text level token).outcome
        = .finished (synthesize_final_summary complete []
            (13 * levelTargetWords level / 10) (detailLevel level)
            (promptInstructionOf level)) ∧
      (run complete text level token).progressEvents = [10, 20, 80, 100] := by
  have hchunks : create_intelligent_chunks text = [] := by
    rw [create_intelligent_chunks, unitsOf_all_space hws]
    rfl
  rw [run_token_ok _ _ _ _ htok]
  refine ⟨hchunks, ?_, ?_⟩
  · rw [hchunks]
    rfl
  · rw [hchunks]
    rfl

/-- Witness for the amended C9 at the one-space text. -/
theorem whitespace_input_no_failure_witness :
    create_intelligent_chunks [' '] = [] ∧
      (run okComplete [' '] .medium demoToken).progressEvents = [10, 20, 80, 100] :=
  ⟨(whitespace_input_no_failure okComplete .medium demoToken [' '] (by decide)
      (by decide)).1,
    (whitespace_input_no_failure okComplete .medium demoToken [' '] (by decide)
      (by decide)).2.2⟩

end BelPdf
